import Mathlib

/-!
Shallow embedding of the journal note store from `app.py`: the
`NotesLinkedList` container (a singly-linked list of note records plus a
size counter), its query and mutation operations, the soft-delete route
handler, the persistence save/load pair, and the calendar aggregation
route. The linked list is embedded as a Lean `List` (head first), Python
dicts holding note fields as a structure, and the route handlers as pure
functions returning found/not-found together with the updated store.
-/

/-- A journal note record: the dict stored in each linked-list node.
The POST route fills every field before insertion (`photos`, `title`,
`deleted` default when absent), so all fields are present. -/
structure Note where
  id : Int
  text : String
  mood : String
  date : String
  title : String
  photos : List String
  deleted : Bool
deriving Repr, DecidableEq

/-- Writes `note['deleted'] = b`, the only in-place field mutation the
code performs. -/
def Note.setDeleted (n : Note) (b : Bool) : Note :=
  ⟨n.id, n.text, n.mood, n.date, n.title, n.photos, b⟩

/-- The `NotesLinkedList` container: `head` is the node chain (front =
most recently added), `size` the maintained counter.  `size` is an
integer, as in Python, not tied by construction to the chain length. -/
structure NotesLinkedList where
  head : List Note
  size : Int
deriving Repr, DecidableEq

/-- `NotesLinkedList.__init__`: empty chain, size 0. -/
def NotesLinkedList.empty : NotesLinkedList := ⟨[], 0⟩

/-- `add_note`: insert at the front, increment size. -/
def NotesLinkedList.add_note (s : NotesLinkedList) (note_data : Note) : NotesLinkedList :=
  ⟨note_data :: s.head, s.size + 1⟩

/-- The scan inside `delete_note`: unlink the first node whose id
matches; `none` when no node matches. -/
def removeFirstById (note_id : Int) : List Note → Option (List Note)
  | [] => none
  | n :: rest =>
    if n.id = note_id then some rest
    else (removeFirstById note_id rest).map (n :: ·)

/-- `delete_note`: permanent removal of the first id match; returns the
Python `True`/`False` and the updated store. -/
def NotesLinkedList.delete_note (s : NotesLinkedList) (note_id : Int) :
    Bool × NotesLinkedList :=
  match removeFirstById note_id s.head with
  | some l => (true, ⟨l, s.size - 1⟩)
  | none => (false, s)

/-- `get_all_notes`: every note in chain order. -/
def NotesLinkedList.get_all_notes (s : NotesLinkedList) : List Note := s.head

/-- `get_deleted_notes`: the notes whose `deleted` flag is set, in chain
order. -/
def NotesLinkedList.get_deleted_notes (s : NotesLinkedList) : List Note :=
  s.head.filter (fun n => n.deleted)

/-- One flattened record of `get_notes_with_photos`. -/
structure PhotoRecord where
  src : String
  mood : String
  date : String
  text : String
  note_id : Int
  deleted : Bool
deriving Repr, DecidableEq

/-- The records one note contributes to `get_notes_with_photos`: one per
photo reference, in photo order. -/
def Note.photoRecords (n : Note) : List PhotoRecord :=
  n.photos.map (fun p => ⟨p, n.mood, n.date, n.text, n.id, n.deleted⟩)

/-- The traversal loop of `get_notes_with_photos`: the Python truthiness
guard `if current.data.get('photos')` skips notes with an empty photo
list. -/
def notesWithPhotosAux : List Note → List PhotoRecord
  | [] => []
  | n :: rest =>
    (if n.photos.isEmpty then [] else n.photoRecords) ++ notesWithPhotosAux rest

/-- `get_notes_with_photos`: one flattened record per (note, photo)
pair. -/
def NotesLinkedList.get_notes_with_photos (s : NotesLinkedList) : List PhotoRecord :=
  notesWithPhotosAux s.head

/-- The scan inside `restore_note`: clear the `deleted` flag of the
first node whose id matches AND whose flag is currently set; nodes with
a matching id but a clear flag are passed over. -/
def restoreFirstById (note_id : Int) : List Note → Option (List Note)
  | [] => none
  | n :: rest =>
    if n.id = note_id ∧ n.deleted = true then some (n.setDeleted false :: rest)
    else (restoreFirstById note_id rest).map (n :: ·)

/-- `restore_note`: returns `True`/`False` and the updated store. -/
def NotesLinkedList.restore_note (s : NotesLinkedList) (note_id : Int) :
    Bool × NotesLinkedList :=
  match restoreFirstById note_id s.head with
  | some l => (true, ⟨l, s.size⟩)
  | none => (false, s)

/-- The scan inside the `DELETE /api/notes/<id>` handler: set the
`deleted` flag of the first node whose id matches, whatever the flag's
current value. -/
def markFirstById (note_id : Int) : List Note → Option (List Note)
  | [] => none
  | n :: rest =>
    if n.id = note_id then some (n.setDeleted true :: rest)
    else (markFirstById note_id rest).map (n :: ·)

/-- The soft-delete route handler (`delete_note` in `setup_routes`),
the store operation the spec calls `MarkDeleted(id)`: `true` stands for
the 200 "Moved to trash" response, `false` for the 404. -/
def markDeleted (s : NotesLinkedList) (note_id : Int) : Bool × NotesLinkedList :=
  match markFirstById note_id s.head with
  | some l => (true, ⟨l, s.size⟩)
  | none => (false, s)

/-- `save_data`: the sequence of note records written to the JSON file,
in store order (`get_all_notes`). -/
def save_data (s : NotesLinkedList) : List Note := s.get_all_notes

/-- `load_data` into a fresh store: iterate the saved records in
`reversed` order, `add_note` each to the front. -/
def load_data (file : List Note) : NotesLinkedList :=
  file.reverse.foldl (fun s n => s.add_note n) NotesLinkedList.empty

/-- A calendar day, the value of Python's `datetime.date`: comparisons
are lexicographic on (year, month, day). -/
structure SDate where
  year : Nat
  month : Nat
  day : Nat
deriving Repr, DecidableEq

/-- Gregorian leap-year rule, as implemented by `datetime`. -/
def isLeapYear (y : Nat) : Bool :=
  y % 4 == 0 && (y % 100 != 0 || y % 400 == 0)

/-- Number of days in a month, as implemented by `datetime`. -/
def daysInMonth (y m : Nat) : Nat :=
  if m = 2 then (if isLeapYear y then 29 else 28)
  else if m = 4 ∨ m = 6 ∨ m = 9 ∨ m = 11 then 30
  else 31

/-- `date` comparison `a <= b`: lexicographic on (year, month, day). -/
def dateLe (a b : SDate) : Bool :=
  Nat.blt a.year b.year ||
    (a.year == b.year &&
      (Nat.blt a.month b.month || (a.month == b.month && Nat.ble a.day b.day)))

/-- Value of an ASCII digit character. -/
def digitVal (c : Char) : Nat := c.toNat - '0'.toNat

/-- `datetime.fromisoformat` applied to a date-only string: accepts
exactly `YYYY-MM-DD` with a valid calendar date (year 1..9999), `none`
standing for the `ValueError` it raises otherwise. -/
def parseIsoDate (s : String) : Option SDate :=
  match s.toList with
  | [y1, y2, y3, y4, h1, m1, m2, h2, d1, d2] =>
    if h1 = '-' ∧ h2 = '-' ∧ y1.isDigit ∧ y2.isDigit ∧ y3.isDigit ∧ y4.isDigit ∧
        m1.isDigit ∧ m2.isDigit ∧ d1.isDigit ∧ d2.isDigit then
      let y := 1000 * digitVal y1 + 100 * digitVal y2 + 10 * digitVal y3 + digitVal y4
      let m := 10 * digitVal m1 + digitVal m2
      let d := 10 * digitVal d1 + digitVal d2
      if 1 ≤ y ∧ 1 ≤ m ∧ m ≤ 12 ∧ 1 ≤ d ∧ d ≤ daysInMonth y m then
        some ⟨y, m, d⟩
      else none
    else none
  | _ => none

/-- `date.split('T')[0]`: the date-portion of a note's timestamp, the
prefix before the first `T` (the whole string when no `T` occurs). -/
def datePortion (s : String) : String :=
  String.mk (s.toList.takeWhile (fun c => c ≠ 'T'))

/-- `some_date - timedelta(days=1)` for dates produced by `datetime`. -/
def predDate (d : SDate) : SDate :=
  if 1 < d.day then ⟨d.year, d.month, d.day - 1⟩
  else if 1 < d.month then ⟨d.year, d.month - 1, daysInMonth d.year (d.month - 1)⟩
  else ⟨d.year - 1, 12, 31⟩

/-- Lookup in the `calendar_data` dict: the first entry with an equal
key (keys are unique by construction). -/
def calLookup (d : String) : List (String × List Note) → Option (List Note)
  | [] => none
  | (k, ns) :: rest => if k = d then some ns else calLookup d rest

/-- `calendar_data[note_date]['notes'].append(...)` together with the
preceding `if note_date not in calendar_data` initialisation: append the
note to the existing key's list, or add the key at the end (dicts keep
insertion order). -/
def insertCal (key : String) (n : Note) : List (String × List Note) → List (String × List Note)
  | [] => [(key, [n])]
  | (k, ns) :: rest =>
    if k = key then (k, ns ++ [n]) :: rest
    else (k, ns) :: insertCal key n rest

/-- The traversal loop of the calendar route: skip deleted notes, parse
each survivor's date-portion (an unparseable one raises, caught as a 500
error response), keep notes within `[sd, ed]`, group by date string. -/
def calLoop (sd ed : SDate) : List Note → List (String × List Note) →
    Except String (List (String × List Note))
  | [], acc => .ok acc
  | n :: rest, acc =>
    if n.deleted then calLoop sd ed rest acc
    else
      match parseIsoDate (datePortion n.date) with
      | none => .error "Invalid isoformat string"
      | some dt =>
        if dateLe sd dt && dateLe dt ed then
          calLoop sd ed rest (insertCal (datePortion n.date) n acc)
        else calLoop sd ed rest acc

/-- The `GET /api/calendar/<year>/<month>` handler: `.error` stands for
the 500 response produced when `datetime` raises (month outside 1..12,
year outside 1..9999, or the rollover constructor `datetime(year+1,1,1)`
overflowing year 9999), `.ok` for the grouped mapping. -/
def get_calendar_data (year month : Nat) (s : NotesLinkedList) :
    Except String (List (String × List Note)) :=
  if month < 1 ∨ 12 < month ∨ year < 1 ∨ 9999 < year then
    .error "month must be in 1..12"
  else if month = 12 ∧ year = 9999 then
    .error "year 10000 is out of range"
  else
    let start_date : SDate := ⟨year, month, 1⟩
    let end_date : SDate :=
      if month = 12 then predDate ⟨year + 1, 1, 1⟩
      else predDate ⟨year, month + 1, 1⟩
    calLoop start_date end_date s.head []

/-- The non-deleted notes, in store order, whose date-portion equals
`d` and parses to a day inside `[sd, ed]`. -/
def rangeFilter (sd ed : SDate) (d : String) (l : List Note) : List Note :=
  l.filter (fun n =>
    !n.deleted && decide (datePortion n.date = d) &&
      (match parseIsoDate (datePortion n.date) with
       | some dt => dateLe sd dt && dateLe dt ed
       | none => false))

/-- The notes a month's calendar mapping should hold under key `d`: the
non-deleted notes, in store order, whose date-portion equals `d` and
parses to a day between the month's first and last calendar day
inclusive. -/
def monthNotesOn (year month : Nat) (d : String) (l : List Note) : List Note :=
  rangeFilter ⟨year, month, 1⟩ ⟨year, month, daysInMonth year month⟩ d l

/-- One step of the store history of the size-invariant claim: an
`add_note` or a `delete_note` call. -/
inductive StoreOp where
  | add (n : Note)
  | del (note_id : Int)
deriving Repr

/-- Apply one history step to the store. -/
def applyOp (s : NotesLinkedList) : StoreOp → NotesLinkedList
  | .add n => s.add_note n
  | .del i => (s.delete_note i).2

/-- Replay a history of operations from the empty store. -/
def applyOps (ops : List StoreOp) : NotesLinkedList :=
  ops.foldl applyOp NotesLinkedList.empty

/-- Concrete note (leap-day date, two photos) for concrete instances. -/
def noteA : Note := ⟨1, "Good day", "happy", "2024-02-29T10:00:00", "", ["p1", "p2"], false⟩

/-- Concrete note with no photos. -/
def noteB : Note := ⟨2, "Rainy", "sad", "2024-03-01T09:30:00", "t", [], false⟩

/-- Concrete note sharing `noteA`'s id. -/
def noteC : Note := ⟨1, "Same id", "calm", "2024-02-10T08:00:00", "", ["q"], false⟩

/-- Concrete note already in the trash. -/
def noteT : Note := ⟨3, "Trashed", "angry", "2024-02-15T12:00:00", "", [], true⟩

/-! ## Helper lemmas -/

theorem foldl_add_note_head (l : List Note) (s : NotesLinkedList) :
    (l.foldl (fun t n => t.add_note n) s).head = l.reverse ++ s.head := by
  induction l generalizing s with
  | nil => simp
  | cons n rest ih =>
    rw [List.foldl_cons, ih]
    simp [NotesLinkedList.add_note]

theorem foldl_add_note_size (l : List Note) (s : NotesLinkedList) :
    (l.foldl (fun t n => t.add_note n) s).size = s.size + l.length := by
  induction l generalizing s with
  | nil => simp
  | cons n rest ih =>
    rw [List.foldl_cons, ih]
    simp only [NotesLinkedList.add_note, List.length_cons]
    push_cast
    ring

theorem removeFirstById_eq_none (note_id : Int) (l : List Note)
    (h : ∀ n ∈ l, n.id ≠ note_id) : removeFirstById note_id l = none := by
  induction l with
  | nil => rfl
  | cons n rest ih =>
    have hn : n.id ≠ note_id := h n (List.mem_cons_self n rest)
    simp only [removeFirstById, if_neg hn]
    rw [ih (fun m hm => h m (List.mem_cons_of_mem n hm))]
    rfl

theorem removeFirstById_some_spec (note_id : Int) (l l' : List Note)
    (h : removeFirstById note_id l = some l') :
    ∃ pre n post, l = pre ++ n :: post ∧ n.id = note_id ∧
      (∀ m ∈ pre, m.id ≠ note_id) ∧ l' = pre ++ post := by
  induction l generalizing l' with
  | nil => simp [removeFirstById] at h
  | cons n rest ih =>
    by_cases hn : n.id = note_id
    · simp only [removeFirstById, if_pos hn, Option.some.injEq] at h
      exact ⟨[], n, rest, by simp, hn, by simp, h.symm⟩
    · simp only [removeFirstById, if_neg hn, Option.map_eq_some'] at h
      obtain ⟨r', hr', hl'⟩ := h
      obtain ⟨pre, m, post, hsplit, hid, hpre, hrest⟩ := ih r' hr'
      refine ⟨n :: pre, m, post, by simp [hsplit], hid, ?_, by simp [hl'.symm, hrest]⟩
      intro x hx
      rcases List.mem_cons.mp hx with hx | hx
      · exact hx ▸ hn
      · exact hpre x hx

theorem restoreFirstById_eq_none (note_id : Int) (l : List Note)
    (h : ∀ n ∈ l, ¬(n.id = note_id ∧ n.deleted = true)) :
    restoreFirstById note_id l = none := by
  induction l with
  | nil => rfl
  | cons n rest ih =>
    simp only [restoreFirstById, if_neg (h n (List.mem_cons_self n rest))]
    rw [ih (fun m hm => h m (List.mem_cons_of_mem n hm))]
    rfl

theorem restoreFirstById_some_spec (note_id : Int) (l l' : List Note)
    (h : restoreFirstById note_id l = some l') :
    ∃ pre n post, l = pre ++ n :: post ∧ n.id = note_id ∧ n.deleted = true ∧
      (∀ m ∈ pre, ¬(m.id = note_id ∧ m.deleted = true)) ∧
      l' = pre ++ n.setDeleted false :: post := by
  induction l generalizing l' with
  | nil => simp [restoreFirstById] at h
  | cons n rest ih =>
    by_cases hn : n.id = note_id ∧ n.deleted = true
    · simp only [restoreFirstById, if_pos hn, Option.some.injEq] at h
      exact ⟨[], n, rest, by simp, hn.1, hn.2, by simp, h.symm⟩
    · simp only [restoreFirstById, if_neg hn, Option.map_eq_some'] at h
      obtain ⟨r', hr', hl'⟩ := h
      obtain ⟨pre, m, post, hsplit, hid, hdel, hpre, hrest⟩ := ih r' hr'
      refine ⟨n :: pre, m, post, by simp [hsplit], hid, hdel, ?_, by simp [hl'.symm, hrest]⟩
      intro x hx
      rcases List.mem_cons.mp hx with hx | hx
      · exact hx ▸ hn
      · exact hpre x hx

theorem markFirstById_eq_none (note_id : Int) (l : List Note)
    (h : ∀ n ∈ l, n.id ≠ note_id) : markFirstById note_id l = none := by
  induction l with
  | nil => rfl
  | cons n rest ih =>
    simp only [markFirstById, if_neg (h n (List.mem_cons_self n rest))]
    rw [ih (fun m hm => h m (List.mem_cons_of_mem n hm))]
    rfl

theorem markFirstById_some_spec (note_id : Int) (l l' : List Note)
    (h : markFirstById note_id l = some l') :
    ∃ pre n post, l = pre ++ n :: post ∧ n.id = note_id ∧
      (∀ m ∈ pre, m.id ≠ note_id) ∧ l' = pre ++ n.setDeleted true :: post := by
  induction l generalizing l' with
  | nil => simp [markFirstById] at h
  | cons n rest ih =>
    by_cases hn : n.id = note_id
    · simp only [markFirstById, if_pos hn, Option.some.injEq] at h
      exact ⟨[], n, rest, by simp, hn, by simp, h.symm⟩
    · simp only [markFirstById, if_neg hn, Option.map_eq_some'] at h
      obtain ⟨r', hr', hl'⟩ := h
      obtain ⟨pre, m, post, hsplit, hid, hpre, hrest⟩ := ih r' hr'
      refine ⟨n :: pre, m, post, by simp [hsplit], hid, ?_, by simp [hl'.symm, hrest]⟩
      intro x hx
      rcases List.mem_cons.mp hx with hx | hx
      · exact hx ▸ hn
      · exact hpre x hx

theorem markFirstById_eq_none_iff (note_id : Int) (l : List Note) :
    markFirstById note_id l = none ↔ ∀ n ∈ l, n.id ≠ note_id := by
  induction l with
  | nil => simp [markFirstById]
  | cons n rest ih =>
    by_cases hn : n.id = note_id
    · simp [markFirstById, hn]
    · simp [markFirstById, hn, ih]

theorem restoreFirstById_eq_none_iff (note_id : Int) (l : List Note) :
    restoreFirstById note_id l = none ↔
      ∀ n ∈ l, ¬(n.id = note_id ∧ n.deleted = true) := by
  induction l with
  | nil => simp [restoreFirstById]
  | cons n rest ih =>
    by_cases hn : n.id = note_id ∧ n.deleted = true
    · simp [restoreFirstById, if_pos hn, hn.1, hn.2]
    · simp only [restoreFirstById, if_neg hn, List.mem_cons]
      constructor
      · intro h m hm
        rcases hm with hm | hm
        · exact hm ▸ hn
        · have : restoreFirstById note_id rest = none := by
            cases hr : restoreFirstById note_id rest with
            | none => rfl
            | some r => rw [hr] at h; simp at h
          exact (ih.mp this) m hm
      · intro h
        rw [ih.mpr (fun m hm => h m (Or.inr hm))]
        rfl

theorem notesWithPhotosAux_eq_flatten (l : List Note) :
    notesWithPhotosAux l = (l.map Note.photoRecords).flatten := by
  induction l with
  | nil => rfl
  | cons n rest ih =>
    by_cases h : n.photos.isEmpty
    · have hnil : n.photoRecords = [] := by
        simp [Note.photoRecords, List.isEmpty_iff.mp h]
      simp [notesWithPhotosAux, h, hnil, ih]
    · simp [notesWithPhotosAux, h, ih]

/-! ## Claim theorems -/

/-- C1: for every sequence of `add_note` calls starting from an empty
store, `get_all_notes` returns the added notes in exact reverse order of
insertion, the most recently added note first. -/
theorem get_all_notes_reverse_of_adds (adds : List Note) :
    (adds.foldl (fun s n => s.add_note n) NotesLinkedList.empty).get_all_notes =
      adds.reverse := by
  simp [NotesLinkedList.get_all_notes, foldl_add_note_head, NotesLinkedList.empty]

/-- C4: adding two notes with the same id does not fail: both notes are
in the store and returned by `get_all_notes`, and `delete_note` on that
id removes only the first (most recently added) of the two, leaving the
other in place. -/
theorem duplicate_id_add_delete (s : NotesLinkedList) (a b : Note) (h : a.id = b.id) :
    a ∈ ((s.add_note b).add_note a).get_all_notes ∧
    b ∈ ((s.add_note b).add_note a).get_all_notes ∧
    (((s.add_note b).add_note a).delete_note a.id).1 = true ∧
    (((s.add_note b).add_note a).delete_note a.id).2.get_all_notes =
      b :: s.get_all_notes := by
  refine ⟨by simp [NotesLinkedList.add_note, NotesLinkedList.get_all_notes],
    by simp [NotesLinkedList.add_note, NotesLinkedList.get_all_notes], ?_, ?_⟩ <;>
    simp [NotesLinkedList.add_note, NotesLinkedList.get_all_notes,
      NotesLinkedList.delete_note, removeFirstById]

/-- Witness for C4 at a concrete store: `noteA` and `noteC` share id 1. -/
theorem duplicate_id_add_delete_witness :
    noteA.id = noteC.id ∧
    (noteA ∈ ((NotesLinkedList.empty.add_note noteC).add_note noteA).get_all_notes ∧
     noteC ∈ ((NotesLinkedList.empty.add_note noteC).add_note noteA).get_all_notes ∧
     (((NotesLinkedList.empty.add_note noteC).add_note noteA).delete_note noteA.id).1 = true ∧
     (((NotesLinkedList.empty.add_note noteC).add_note noteA).delete_note noteA.id).2.get_all_notes =
       noteC :: NotesLinkedList.empty.get_all_notes) :=
  ⟨by decide, duplicate_id_add_delete NotesLinkedList.empty noteA noteC (by decide)⟩

/-- C7: saving a store and reloading the saved records into a fresh
store reproduces the same notes, with identical field values, in the
same most-recent-first order, and with the size counter equal to the
number of notes. -/
theorem save_load_round_trip (s : NotesLinkedList) :
    (load_data (save_data s)).get_all_notes = s.get_all_notes ∧
    (load_data (save_data s)).size = (s.get_all_notes.length : Int) := by
  constructor
  · show (load_data (save_data s)).head = s.head
    rw [load_data, foldl_add_note_head]
    simp [save_data, NotesLinkedList.get_all_notes, NotesLinkedList.empty]
  · show (load_data (save_data s)).size = _
    rw [load_data, foldl_add_note_size]
    simp [save_data, NotesLinkedList.get_all_notes, NotesLinkedList.empty]

/-- C9: `get_notes_with_photos` returns one flattened record per
(note, photo) pair — note order then photo order — each record carrying
that note's photo reference, mood, date, text, id and deleted flag; a
note with `k` photo references contributes exactly `k` records. -/
theorem get_notes_with_photos_flatten (s : NotesLinkedList) :
    s.get_notes_with_photos =
      (s.get_all_notes.map (fun n =>
        n.photos.map (fun p =>
          PhotoRecord.mk p n.mood n.date n.text n.id n.deleted))).flatten ∧
    s.get_notes_with_photos.length =
      (s.get_all_notes.map (fun n => n.photos.length)).sum := by
  have h := notesWithPhotosAux_eq_flatten s.head
  constructor
  · exact h
  · rw [NotesLinkedList.get_notes_with_photos, h]
    have hlen : (List.length ∘ Note.photoRecords) = fun n : Note => n.photos.length := by
      funext n
      simp [Note.photoRecords]
    simp only [List.length_flatten, List.map_map, hlen, NotesLinkedList.get_all_notes]

/-- C5: `restore_note` returns found exactly when the store holds a note
with the given id whose deleted flag is set; on not-found (id absent, or
present only on non-deleted notes) the store is unchanged; on found the
first such note has its deleted flag cleared and every other note is
untouched. -/
theorem restore_note_spec (s : NotesLinkedList) (note_id : Int) :
    ((s.restore_note note_id).1 = true ↔
      ∃ n ∈ s.get_all_notes, n.id = note_id ∧ n.deleted = true) ∧
    ((s.restore_note note_id).1 = false → (s.restore_note note_id).2 = s) ∧
    ((s.restore_note note_id).1 = true →
      ∃ pre n post, s.get_all_notes = pre ++ n :: post ∧
        n.id = note_id ∧ n.deleted = true ∧
        (s.restore_note note_id).2.get_all_notes =
          pre ++ n.setDeleted false :: post ∧
        (s.restore_note note_id).2.size = s.size) := by
  unfold NotesLinkedList.restore_note NotesLinkedList.get_all_notes
  cases hr : restoreFirstById note_id s.head with
  | none =>
    refine ⟨⟨fun hft => by simp at hft, fun hex => ?_⟩, fun _ => rfl,
      fun hft => by simp at hft⟩
    obtain ⟨n, hmem, hid, hdel⟩ := hex
    exact (((restoreFirstById_eq_none_iff note_id s.head).mp hr n hmem) ⟨hid, hdel⟩).elim
  | some l =>
    obtain ⟨pre, n, post, hsplit, hid, hdel, hpre, hl⟩ :=
      restoreFirstById_some_spec note_id s.head l hr
    exact ⟨⟨fun _ => ⟨n, by simp [hsplit], hid, hdel⟩, fun _ => rfl⟩,
      fun hff => by simp at hff,
      fun _ => ⟨pre, n, post, hsplit, hid, hdel, by simp [hl], rfl⟩⟩

/-- C2 counterexample: in a store whose only note (id 3) is already
trashed, no active note has id 3, yet the soft-delete handler returns
success instead of the not-found response the claim requires. -/
theorem mark_deleted_counterexample :
    (∀ n ∈ (⟨[noteT], 1⟩ : NotesLinkedList).get_all_notes,
      ¬(n.id = 3 ∧ n.deleted = false)) ∧
    (markDeleted ⟨[noteT], 1⟩ 3).1 = true := by
  decide

/-- C2 amended: the soft-delete handler returns success exactly when
some note (active or already trashed) carries the id; on not-found no
note changes; on success the first note carrying the id gets its
deleted flag set and every other note is untouched. -/
theorem mark_deleted_spec (s : NotesLinkedList) (note_id : Int) :
    ((markDeleted s note_id).1 = true ↔ ∃ n ∈ s.get_all_notes, n.id = note_id) ∧
    ((markDeleted s note_id).1 = false → (markDeleted s note_id).2 = s) ∧
    ((markDeleted s note_id).1 = true →
      ∃ pre n post, s.get_all_notes = pre ++ n :: post ∧ n.id = note_id ∧
        (∀ m ∈ pre, m.id ≠ note_id) ∧
        (markDeleted s note_id).2.get_all_notes =
          pre ++ n.setDeleted true :: post) := by
  unfold markDeleted NotesLinkedList.get_all_notes
  cases hm : markFirstById note_id s.head with
  | none =>
    refine ⟨⟨fun hft => by simp at hft, fun hex => ?_⟩, fun _ => rfl,
      fun hft => by simp at hft⟩
    obtain ⟨n, hmem, hid⟩ := hex
    exact (((markFirstById_eq_none_iff note_id s.head).mp hm n hmem) hid).elim
  | some l =>
    obtain ⟨pre, n, post, hsplit, hid, hpre, hl⟩ :=
      markFirstById_some_spec note_id s.head l hm
    exact ⟨⟨fun _ => ⟨n, by simp [hsplit], hid⟩, fun _ => rfl⟩,
      fun hff => by simp at hff,
      fun _ => ⟨pre, n, post, hsplit, hid, hpre, by simp [hl]⟩⟩

/-- C3 counterexample: with two notes sharing id 1 (the spec allows
duplicate ids), `delete_note 1` returns found yet a note with id 1 is
still returned by `get_all_notes`, so the claim fails as stated for
arbitrary stores. -/
theorem delete_note_terminal_counterexample :
    ((⟨[noteA, noteC], 2⟩ : NotesLinkedList).delete_note 1).1 = true ∧
    ∃ n ∈ ((⟨[noteA, noteC], 2⟩ : NotesLinkedList).delete_note 1).2.get_all_notes,
      n.id = 1 := by
  decide

/-- C3 amended: for every store holding at most one note with the given
id, after `delete_note` returns found the id appears in neither
`get_all_notes` nor `get_deleted_notes`, and every subsequent
`restore_note` or `delete_note` call on that id returns not-found. -/
theorem delete_note_terminal (s : NotesLinkedList) (note_id : Int)
    (hu : s.get_all_notes.countP (fun n => decide (n.id = note_id)) ≤ 1)
    (hf : (s.delete_note note_id).1 = true) :
    (∀ n ∈ (s.delete_note note_id).2.get_all_notes, n.id ≠ note_id) ∧
    (∀ n ∈ (s.delete_note note_id).2.get_deleted_notes, n.id ≠ note_id) ∧
    ((s.delete_note note_id).2.restore_note note_id).1 = false ∧
    ((s.delete_note note_id).2.delete_note note_id).1 = false := by
  cases hrem : removeFirstById note_id s.head with
  | none => simp [NotesLinkedList.delete_note, hrem] at hf
  | some l =>
    obtain ⟨pre, n, post, hsplit, hid, hpre, hl⟩ :=
      removeFirstById_some_spec note_id s.head l hrem
    rw [NotesLinkedList.get_all_notes, hsplit] at hu
    simp [List.countP_append, List.countP_cons, hid] at hu
    have hpost : ∀ m ∈ post, m.id ≠ note_id := by
      intro m hm heq
      have hpos : 0 < post.countP (fun n => decide (n.id = note_id)) :=
        List.countP_pos.mpr ⟨m, hm, by simp [heq]⟩
      omega
    have habs : ∀ m ∈ l, m.id ≠ note_id := by
      intro m hm
      rw [hl] at hm
      rcases List.mem_append.mp hm with hm | hm
      · exact hpre m hm
      · exact hpost m hm
    have hres : (s.delete_note note_id).2 = ⟨l, s.size - 1⟩ := by
      simp [NotesLinkedList.delete_note, hrem]
    rw [hres]
    refine ⟨habs, ?_, ?_, ?_⟩
    · intro m hm
      exact habs m (List.mem_of_mem_filter hm)
    · rw [NotesLinkedList.restore_note]
      rw [restoreFirstById_eq_none_iff note_id l |>.mpr
        (fun m hm hc => habs m hm hc.1)]
    · rw [NotesLinkedList.delete_note]
      rw [removeFirstById_eq_none note_id l habs]

/-- Witness for C3 at a concrete store with distinct ids. -/
theorem delete_note_terminal_witness :
    ((⟨[noteA, noteB], 2⟩ : NotesLinkedList).get_all_notes.countP
        (fun n => decide (n.id = 1)) ≤ 1) ∧
    ((⟨[noteA, noteB], 2⟩ : NotesLinkedList).delete_note 1).1 = true ∧
    ((∀ n ∈ ((⟨[noteA, noteB], 2⟩ : NotesLinkedList).delete_note 1).2.get_all_notes,
        n.id ≠ 1) ∧
     (∀ n ∈ ((⟨[noteA, noteB], 2⟩ : NotesLinkedList).delete_note 1).2.get_deleted_notes,
        n.id ≠ 1) ∧
     (((⟨[noteA, noteB], 2⟩ : NotesLinkedList).delete_note 1).2.restore_note 1).1 = false ∧
     (((⟨[noteA, noteB], 2⟩ : NotesLinkedList).delete_note 1).2.delete_note 1).1 = false) :=
  ⟨by decide, by decide, delete_note_terminal ⟨[noteA, noteB], 2⟩ 1 (by decide) (by decide)⟩

theorem map_ite_id_of_no_match (note_id : Int) (f : Note → Note) (l : List Note)
    (h : ∀ n ∈ l, n.id ≠ note_id) :
    l.map (fun n => if n.id = note_id then f n else n) = l := by
  rw [List.map_congr_left (fun n hn => if_neg (h n hn))]
  exact List.map_id l

theorem countP_eq_zero_no_match (note_id : Int) (l : List Note)
    (h : l.countP (fun n => decide (n.id = note_id)) = 0) :
    ∀ m ∈ l, m.id ≠ note_id := by
  intro m hm heq
  have hpos : 0 < l.countP (fun n => decide (n.id = note_id)) :=
    List.countP_pos_iff.mpr ⟨m, hm, by simp [heq]⟩
  omega


theorem markFirstById_unique (note_id : Int) (l : List Note)
    (h : l.countP (fun n => decide (n.id = note_id)) = 1) :
    markFirstById note_id l =
      some (l.map (fun n => if n.id = note_id then n.setDeleted true else n)) := by
  induction l with
  | nil => simp at h
  | cons n rest ih =>
    rw [List.countP_cons] at h
    by_cases hn : n.id = note_id
    · simp only [hn, decide_True, if_true, decide_eq_true_eq] at h
      have hrest : rest.countP (fun n => decide (n.id = note_id)) = 0 := by omega
      simp [markFirstById, hn,
        map_ite_id_of_no_match note_id _ rest (countP_eq_zero_no_match note_id rest hrest)]
    · have hc : ¬(decide (n.id = note_id) = true) := by simp [hn]
      rw [if_neg hc] at h
      have hrest : rest.countP (fun n => decide (n.id = note_id)) = 1 := by omega
      simp [markFirstById, hn, ih hrest]

theorem restoreFirstById_unique (note_id : Int) (l : List Note)
    (h : l.countP (fun n => decide (n.id = note_id)) = 1)
    (hd : ∀ n ∈ l, n.id = note_id → n.deleted = true) :
    restoreFirstById note_id l =
      some (l.map (fun n => if n.id = note_id then n.setDeleted false else n)) := by
  induction l with
  | nil => simp at h
  | cons n rest ih =>
    rw [List.countP_cons] at h
    by_cases hn : n.id = note_id
    · simp only [hn, decide_True, if_true, decide_eq_true_eq] at h
      have hrest : rest.countP (fun n => decide (n.id = note_id)) = 0 := by omega
      have hdel : n.deleted = true := hd n (List.mem_cons_self n rest) hn
      simp [restoreFirstById, hn, hdel,
        map_ite_id_of_no_match note_id _ rest (countP_eq_zero_no_match note_id rest hrest)]
    · have hc : ¬(decide (n.id = note_id) = true) := by simp [hn]
      rw [if_neg hc] at h
      have hrest : rest.countP (fun n => decide (n.id = note_id)) = 1 := by omega
      have hcond : ¬(n.id = note_id ∧ n.deleted = true) := fun hcc => hn hcc.1
      simp [restoreFirstById, if_neg hcond, hn,
        ih hrest (fun m hm => hd m (List.mem_cons_of_mem n hm))]

/-- C6: on a store holding exactly one note with the given id, the
soft-delete handler followed by `restore_note` both report found, and
the final store is the original with that note's deleted flag set to
false, all its other fields and every other note untouched, and the
size counter unchanged. -/
theorem mark_then_restore_round_trip (s : NotesLinkedList) (note_id : Int)
    (hu : s.get_all_notes.countP (fun n => decide (n.id = note_id)) = 1) :
    (markDeleted s note_id).1 = true ∧
    ((markDeleted s note_id).2.restore_note note_id).1 = true ∧
    ((markDeleted s note_id).2.restore_note note_id).2.get_all_notes =
      s.get_all_notes.map
        (fun n => if n.id = note_id then n.setDeleted false else n) ∧
    ((markDeleted s note_id).2.restore_note note_id).2.size = s.size := by
  rw [NotesLinkedList.get_all_notes] at hu
  have h1 := markFirstById_unique note_id s.head hu
  have hm : markDeleted s note_id =
      (true, ⟨s.head.map (fun n => if n.id = note_id then n.setDeleted true else n),
        s.size⟩) := by
    rw [markDeleted, h1]
  have hcount1 : (s.head.map
      (fun n => if n.id = note_id then n.setDeleted true else n)).countP
        (fun n => decide (n.id = note_id)) = 1 := by
    rw [List.countP_map, List.countP_congr (fun m _ => ?_)]
    · exact hu
    · by_cases hmid : m.id = note_id <;> simp [Function.comp, hmid, Note.setDeleted]
  have hd : ∀ n ∈ s.head.map
      (fun n => if n.id = note_id then n.setDeleted true else n),
      n.id = note_id → n.deleted = true := by
    intro n hn heq
    obtain ⟨m, hmem, rfl⟩ := List.mem_map.mp hn
    by_cases hmid : m.id = note_id
    · simp [hmid, Note.setDeleted]
    · rw [if_neg hmid] at heq ⊢
      exact absurd heq hmid
  have h2 := restoreFirstById_unique note_id _ hcount1 hd
  have h3 : (⟨s.head.map (fun n => if n.id = note_id then n.setDeleted true else n),
      s.size⟩ : NotesLinkedList).restore_note note_id =
      (true, ⟨(s.head.map (fun n => if n.id = note_id then n.setDeleted true else n)).map
        (fun n => if n.id = note_id then n.setDeleted false else n), s.size⟩) := by
    simp only [NotesLinkedList.restore_note, h2]
  rw [hm, h3]
  refine ⟨rfl, rfl, ?_, rfl⟩
  show (s.head.map (fun n => if n.id = note_id then n.setDeleted true else n)).map
      (fun n => if n.id = note_id then n.setDeleted false else n) =
    s.head.map (fun n => if n.id = note_id then n.setDeleted false else n)
  rw [List.map_map]
  apply List.map_congr_left
  intro n _
  by_cases hmid : n.id = note_id
  · simp [Function.comp, hmid, Note.setDeleted]
  · simp [Function.comp, hmid]

/-- Witness for C6 at a concrete store where id 2 occurs exactly once. -/
theorem mark_then_restore_round_trip_witness :
    ((⟨[noteA, noteB], 2⟩ : NotesLinkedList).get_all_notes.countP
        (fun n => decide (n.id = 2)) = 1) ∧
    ((markDeleted ⟨[noteA, noteB], 2⟩ 2).1 = true ∧
     ((markDeleted ⟨[noteA, noteB], 2⟩ 2).2.restore_note 2).1 = true ∧
     ((markDeleted ⟨[noteA, noteB], 2⟩ 2).2.restore_note 2).2.get_all_notes =
       (⟨[noteA, noteB], 2⟩ : NotesLinkedList).get_all_notes.map
         (fun n => if n.id = 2 then n.setDeleted false else n) ∧
     ((markDeleted ⟨[noteA, noteB], 2⟩ 2).2.restore_note 2).2.size =
       (⟨[noteA, noteB], 2⟩ : NotesLinkedList).size) :=
  ⟨by decide, mark_then_restore_round_trip ⟨[noteA, noteB], 2⟩ 2 (by decide)⟩

theorem removeFirstById_length (note_id : Int) (l l' : List Note)
    (h : removeFirstById note_id l = some l') : l'.length + 1 = l.length := by
  obtain ⟨pre, n, post, hsplit, -, -, hl⟩ :=
    removeFirstById_some_spec note_id l l' h
  rw [hsplit, hl]
  simp
  omega

theorem applyOp_size_inv (s : NotesLinkedList) (op : StoreOp)
    (h : s.size = (s.head.length : Int)) :
    (applyOp s op).size = ((applyOp s op).head.length : Int) := by
  cases op with
  | add n =>
    simp only [applyOp, NotesLinkedList.add_note, List.length_cons, h]
    push_cast
    ring
  | del i =>
    cases hr : removeFirstById i s.head with
    | none => simp [applyOp, NotesLinkedList.delete_note, hr, h]
    | some l' =>
      have hlen := removeFirstById_length i s.head l' hr
      simp only [applyOp, NotesLinkedList.delete_note, hr, h]
      push_cast
      omega

theorem applyOps_size_inv (ops : List StoreOp) :
    (applyOps ops).size = ((applyOps ops).head.length : Int) := by
  suffices hgen : ∀ (l : List StoreOp) (s : NotesLinkedList),
      s.size = (s.head.length : Int) →
      (l.foldl applyOp s).size = ((l.foldl applyOp s).head.length : Int) by
    exact hgen ops NotesLinkedList.empty (by simp [NotesLinkedList.empty])
  intro l
  induction l with
  | nil => intro s hs; exact hs
  | cons op rest ih =>
    intro s hs
    exact ih _ (applyOp_size_inv s op hs)

/-- C10: after every history of `add_note`/`delete_note` operations from
the empty store, the size counter equals the number of reachable nodes;
a further `add_note` raises both by one, a `delete_note` that returns
found lowers both by one, and one that returns not-found changes
nothing. -/
theorem size_tracks_length (ops : List StoreOp) :
    (applyOps ops).size = ((applyOps ops).head.length : Int) ∧
    (∀ n : Note, ((applyOps ops).add_note n).size = (applyOps ops).size + 1 ∧
      ((applyOps ops).add_note n).head.length = (applyOps ops).head.length + 1) ∧
    ∀ note_id : Int,
      (((applyOps ops).delete_note note_id).1 = true →
        ((applyOps ops).delete_note note_id).2.size = (applyOps ops).size - 1 ∧
        ((applyOps ops).delete_note note_id).2.head.length + 1 =
          (applyOps ops).head.length) ∧
      (((applyOps ops).delete_note note_id).1 = false →
        ((applyOps ops).delete_note note_id).2 = applyOps ops) := by
  refine ⟨applyOps_size_inv ops, ?_, fun note_id => ⟨?_, ?_⟩⟩
  · intro n
    constructor
    · rfl
    · simp [NotesLinkedList.add_note]
  · intro hf
    cases hr : removeFirstById note_id (applyOps ops).head with
    | none => simp [NotesLinkedList.delete_note, hr] at hf
    | some l' =>
      have hlen := removeFirstById_length note_id _ l' hr
      simp only [NotesLinkedList.delete_note, hr]
      exact ⟨trivial, hlen⟩
  · intro hf
    cases hr : removeFirstById note_id (applyOps ops).head with
    | none => simp [NotesLinkedList.delete_note, hr]
    | some l' => simp [NotesLinkedList.delete_note, hr] at hf

theorem calLookup_insertCal (key : String) (n : Note)
    (m : List (String × List Note)) (d : String) :
    calLookup d (insertCal key n m) =
      if d = key then some ((calLookup key m).getD [] ++ [n])
      else calLookup d m := by
  induction m with
  | nil =>
    by_cases hd : d = key
    · simp [insertCal, calLookup, hd]
    · have hkd : key ≠ d := fun h => hd h.symm
      simp [insertCal, calLookup, hd, hkd]
  | cons p rest ih =>
    obtain ⟨k, ns⟩ := p
    by_cases hk : k = key
    · subst hk
      by_cases hd : d = k
      · subst hd
        simp [insertCal, calLookup]
      · have hkd : k ≠ d := fun h => hd h.symm
        simp [insertCal, calLookup, hd, hkd]
    · by_cases hd : d = k
      · subst hd
        simp [insertCal, calLookup, hk]
      · have hkd : k ≠ d := fun h => hd h.symm
        simp [insertCal, calLookup, hk, hkd, ih]

theorem calLoop_spec (sd ed : SDate) (l : List Note) (acc : List (String × List Note))
    (hp : ∀ n ∈ l, n.deleted = false →
      (parseIsoDate (datePortion n.date)).isSome = true) :
    ∃ m, calLoop sd ed l acc = Except.ok m ∧
      ∀ d, calLookup d m =
        match calLookup d acc with
        | some ns => some (ns ++ rangeFilter sd ed d l)
        | none =>
          if rangeFilter sd ed d l = [] then none
          else some (rangeFilter sd ed d l) := by
  induction l generalizing acc with
  | nil =>
    refine ⟨acc, rfl, fun d => ?_⟩
    cases hacc : calLookup d acc <;> simp [rangeFilter, hacc]
  | cons n rest ih =>
    cases hdel : n.deleted with
    | true =>
      have hstep : calLoop sd ed (n :: rest) acc = calLoop sd ed rest acc := by
        simp [calLoop, hdel]
      obtain ⟨m, hm, hchar⟩ := ih acc (fun x hx => hp x (List.mem_cons_of_mem n hx))
      refine ⟨m, hstep.trans hm, fun d => ?_⟩
      have hrf : rangeFilter sd ed d (n :: rest) = rangeFilter sd ed d rest := by
        simp [rangeFilter, List.filter_cons, hdel]
      rw [hrf]
      exact hchar d
    | false =>
      have hps : (parseIsoDate (datePortion n.date)).isSome = true :=
        hp n (List.mem_cons_self n rest) hdel
      obtain ⟨dt, hdt⟩ := Option.isSome_iff_exists.mp hps
      cases hrange : dateLe sd dt && dateLe dt ed with
      | false =>
        have hstep : calLoop sd ed (n :: rest) acc = calLoop sd ed rest acc := by
          simp [calLoop, hdel, hdt, hrange]
        obtain ⟨m, hm, hchar⟩ := ih acc (fun x hx => hp x (List.mem_cons_of_mem n hx))
        refine ⟨m, hstep.trans hm, fun d => ?_⟩
        have hrf : rangeFilter sd ed d (n :: rest) = rangeFilter sd ed d rest := by
          simp [rangeFilter, List.filter_cons, hdel, hdt, hrange]
        rw [hrf]
        exact hchar d
      | true =>
        have hstep : calLoop sd ed (n :: rest) acc =
            calLoop sd ed rest (insertCal (datePortion n.date) n acc) := by
          simp [calLoop, hdel, hdt, hrange]
        obtain ⟨m, hm, hchar⟩ := ih (insertCal (datePortion n.date) n acc)
          (fun x hx => hp x (List.mem_cons_of_mem n hx))
        refine ⟨m, hstep.trans hm, fun d => ?_⟩
        rw [hchar d, calLookup_insertCal]
        by_cases hd : d = datePortion n.date
        · have hrf : rangeFilter sd ed d (n :: rest) = n :: rangeFilter sd ed d rest := by
            subst hd
            simp [rangeFilter, List.filter_cons, hdel, hdt, hrange]
          rw [if_pos hd, hrf, hd]
          cases hacc : calLookup (datePortion n.date) acc with
          | none => simp
          | some ns => simp
        · have hpd : ¬(datePortion n.date = d) := fun h => hd h.symm
          have hrf : rangeFilter sd ed d (n :: rest) = rangeFilter sd ed d rest := by
            simp [rangeFilter, List.filter_cons, hpd]
          rw [if_neg hd, hrf]

theorem end_date_eq (year month : Nat) (h1 : 1 ≤ month) (h2 : month ≤ 12) :
    (if month = 12 then predDate ⟨year + 1, 1, 1⟩ else predDate ⟨year, month + 1, 1⟩) =
      ⟨year, month, daysInMonth year month⟩ := by
  interval_cases month <;> simp [predDate, daysInMonth]

/-- C8: for a valid year and month, the calendar route returns a mapping
whose entry at a date key `d` holds exactly the non-deleted notes whose
date-portion equals `d` and lies between the month's first and last
calendar day inclusive (the last day as produced by the next-month
rollover, December included), in store traversal order; a key with no
qualifying notes is absent. -/
theorem calendar_month_mapping (year month : Nat) (s : NotesLinkedList)
    (hm1 : 1 ≤ month) (hm2 : month ≤ 12) (hy1 : 1 ≤ year) (hy2 : year ≤ 9998)
    (hp : ∀ n ∈ s.get_all_notes, n.deleted = false →
      (parseIsoDate (datePortion n.date)).isSome = true) :
    ∃ m, get_calendar_data year month s = Except.ok m ∧
      ∀ d : String, calLookup d m =
        if monthNotesOn year month d s.get_all_notes = [] then none
        else some (monthNotesOn year month d s.get_all_notes) := by
  rw [NotesLinkedList.get_all_notes] at hp
  have hguard1 : ¬(month < 1 ∨ 12 < month ∨ year < 1 ∨ 9999 < year) := by omega
  have hguard2 : ¬(month = 12 ∧ year = 9999) := by
    intro hc
    omega
  have hcal : get_calendar_data year month s =
      calLoop ⟨year, month, 1⟩ ⟨year, month, daysInMonth year month⟩ s.head [] := by
    rw [get_calendar_data, if_neg hguard1, if_neg hguard2,
      end_date_eq year month hm1 hm2]
  obtain ⟨m, hm, hchar⟩ :=
    calLoop_spec ⟨year, month, 1⟩ ⟨year, month, daysInMonth year month⟩ s.head [] hp
  refine ⟨m, hcal.trans hm, fun d => ?_⟩
  rw [hchar d]
  simp only [calLookup]
  rw [NotesLinkedList.get_all_notes, monthNotesOn]

/-- Witness for C8: February 2024 (a leap year) over a concrete store
with an in-month active note, an out-of-month note and a trashed note. -/
theorem calendar_month_mapping_witness :
    ((1 : Nat) ≤ 2 ∧ (2 : Nat) ≤ 12 ∧ (1 : Nat) ≤ 2024 ∧ (2024 : Nat) ≤ 9998) ∧
    (∀ n ∈ (⟨[noteA, noteB, noteT], 3⟩ : NotesLinkedList).get_all_notes,
      n.deleted = false → (parseIsoDate (datePortion n.date)).isSome = true) ∧
    ∃ m, get_calendar_data 2024 2 ⟨[noteA, noteB, noteT], 3⟩ = Except.ok m ∧
      ∀ d : String, calLookup d m =
        if monthNotesOn 2024 2 d
            (⟨[noteA, noteB, noteT], 3⟩ : NotesLinkedList).get_all_notes = [] then none
        else some (monthNotesOn 2024 2 d
          (⟨[noteA, noteB, noteT], 3⟩ : NotesLinkedList).get_all_notes) :=
  ⟨by decide, by decide,
    calendar_month_mapping 2024 2 ⟨[noteA, noteB, noteT], 3⟩
      (by decide) (by decide) (by decide) (by decide) (by decide)⟩
